import Mathlib

set_option maxRecDepth 40000

/-!
Verification of the legal-structure parser of `src/model_law_processor.py`
(class `ModelLawProcessor`).  The parser pipeline is

  raw text → `normalize_text` → `TOKEN_PATTERN.finditer` (tokenizer)
           → `classify_level` + stack-based `parse_legal_structure`
           → `collapse_table_of_contents`.

Texts are modelled as `List Char`.  All inputs handled by this program are
ASCII, so Python's `\w`, `\s`, `\d`, `[A-Z]`, `[a-z]` character classes are
modelled by their ASCII meaning.
-/

namespace MLP

/-- Python regex `\s` (ASCII whitespace as used by `str.strip()` and `\s`
on the ASCII inputs of this program). -/
def isSpc (c : Char) : Bool :=
  c = ' ' || c = '\t' || c = '\n' || c = '\r' || c = '\x0b' || c = '\x0c'

/-- Python regex `\d` on ASCII. -/
def isDigitC (c : Char) : Bool := '0' ≤ c && c ≤ '9'

/-- Python regex class `[A-Z]`. -/
def isUpperC (c : Char) : Bool := 'A' ≤ c && c ≤ 'Z'

/-- Python regex class `[a-z]`. -/
def isLowerC (c : Char) : Bool := 'a' ≤ c && c ≤ 'z'

/-- Python regex `\w` on ASCII: letters, digits, underscore. -/
def isWordC (c : Char) : Bool := isDigitC c || isUpperC c || isLowerC c || c = '_'

/-- Python `str.strip()`: remove leading and trailing whitespace. -/
def stripChars (s : List Char) : List Char :=
  ((s.dropWhile isSpc).reverse.dropWhile isSpc).reverse

/-- The substring `text[a:b]` (Python slice semantics for `0 ≤ a ≤ b`). -/
def slice (text : List Char) (a b : Nat) : List Char :=
  (text.drop a).take (b - a)

/-- Match a literal character sequence at the head of `s`; return the rest. -/
def dropLit : List Char → List Char → Option (List Char)
  | [], s => some s
  | c :: cs, d :: s => if c = d then dropLit cs s else none
  | _ :: _, [] => none

/-- The literal `Section` (used both by the tokenizer and by
`classify_level`/`collapse_table_of_contents` via `str.startswith`). -/
def sectionLit : List Char := ['S', 'e', 'c', 't', 'i', 'o', 'n']

/-!
The tokenizer regex (`TOKEN_PATTERN`, `model_law_processor.py` lines 13-17):

  (?m)^\s*(Section\s+\d+\.)
     |^\s*([A-Z]\.)
     |^\s*(\(\d+\))\s+(?=[A-Z])
     |^\s*(\([a-z]\))\s+(?=[A-Z])

Every alternative starts with `^\s*` followed by a non-whitespace character,
so the greedy `\s*` can only succeed by consuming the maximal whitespace run;
backtracking from the maximal run would place a whitespace character where a
non-whitespace one is required.  Likewise `Section\s+\d+\.` forces maximal
runs because `\d` cannot match whitespace and `.` cannot match a digit, and
the `\s+(?=[A-Z])` tails of alternatives 3-4 force the maximal whitespace run
because the lookahead cannot match whitespace.  The matchers below therefore
use maximal (`takeWhile`) runs; they return `(token, rest)` where `token` is
the matched token as stored by the parser (`match.group().strip()`, which for
these shapes is the core token without surrounding whitespace) and `rest` is
the remaining input after `match.end()`.
-/

/-- Alternative 1 after the implicit `^\s*`: `Section\s+\d+\.` . -/
def matchSection (s : List Char) : Option (List Char × List Char) :=
  match dropLit sectionLit s with
  | none => none
  | some s1 =>
    let ws := s1.takeWhile isSpc
    let s2 := s1.dropWhile isSpc
    if ws.isEmpty then none
    else
      let ds := s2.takeWhile isDigitC
      let s3 := s2.dropWhile isDigitC
      if ds.isEmpty then none
      else
        match s3 with
        | d :: s4 => if d = '.' then some (sectionLit ++ ws ++ ds ++ [d], s4) else none
        | [] => none

/-- Alternative 2: `[A-Z]\.` . -/
def matchUpper (s : List Char) : Option (List Char × List Char) :=
  match s with
  | c :: d :: rest => if isUpperC c && d = '.' then some ([c, d], rest) else none
  | _ => none

/-- Alternative 3: `\(\d+\)\s+(?=[A-Z])`.  The token is `(digits)`; the
trailing whitespace is part of the match (`match.end()` is after it) but is
removed from the token by `.strip()`; the lookahead letter is not consumed. -/
def matchParenDigits (s : List Char) : Option (List Char × List Char) :=
  match s with
  | c :: s1 =>
    if c = '(' then
      let ds := s1.takeWhile isDigitC
      let s2 := s1.dropWhile isDigitC
      if ds.isEmpty then none
      else
        match s2 with
        | d :: s3 =>
          if d = ')' then
            let ws := s3.takeWhile isSpc
            let s4 := s3.dropWhile isSpc
            if ws.isEmpty then none
            else
              match s4 with
              | e :: _ => if isUpperC e then some (c :: ds ++ [d], s4) else none
              | [] => none
          else none
        | [] => none
    else none
  | [] => none

/-- Alternative 4: `\([a-z]\)\s+(?=[A-Z])`. -/
def matchParenLower (s : List Char) : Option (List Char × List Char) :=
  match s with
  | c :: d :: e :: s3 =>
    if c = '(' && isLowerC d && e = ')' then
      let ws := s3.takeWhile isSpc
      let s4 := s3.dropWhile isSpc
      if ws.isEmpty then none
      else
        match s4 with
        | f :: _ => if isUpperC f then some ([c, d, e], s4) else none
        | [] => none
    else none
  | _ => none

/-- The four alternatives of `TOKEN_PATTERN` tried left to right (regex
alternation order) at a fixed position, after the common `^\s*`. -/
def tryCore (s : List Char) : Option (List Char × List Char) :=
  match matchSection s with
  | some r => some r
  | none =>
    match matchUpper s with
    | some r => some r
    | none =>
      match matchParenDigits s with
      | some r => some r
      | none => matchParenLower s

/-- One regex match as used by `parse_legal_structure`: `start` is
`match.start()`, `stop` is `match.end()`, `token` is `match.group().strip()`. -/
structure RMatch where
  start : Nat
  stop : Nat
  token : List Char
deriving DecidableEq

/-- Multiline `^`: position 0 or a position right after a newline. -/
def isLineStart (text : List Char) (p : Nat) : Bool :=
  p == 0 ||
    (match text.get? (p - 1) with
     | some c => c = '\n'
     | none => false)

/-- Attempt to match `TOKEN_PATTERN` at position `p` of `text`. -/
def tryMatchAt (text : List Char) (p : Nat) : Option RMatch :=
  if isLineStart text p then
    let s := text.drop p
    let s1 := s.dropWhile isSpc
    match tryCore s1 with
    | some pr => some ⟨p, text.length - pr.2.length, pr.1⟩
    | none => none
  else none

/-- Scanning loop of `re.finditer`: try each position from left to right,
and continue after the end of each (non-empty) match.  `fuel` bounds the
recursion; since every step advances the position by at least one,
`text.length + 1` fuel exhausts all positions. -/
def scanFrom (text : List Char) : Nat → Nat → List RMatch
  | 0, _ => []
  | fuel + 1, p =>
    if text.length ≤ p then []
    else
      match tryMatchAt text p with
      | some m => m :: scanFrom text fuel m.stop
      | none => scanFrom text fuel (p + 1)

/-- `list(TOKEN_PATTERN.finditer(text))`. -/
def scan (text : List Char) : List RMatch :=
  scanFrom text (text.length + 1) 0

/-!  `classify_level` (lines 108-119). -/

/-- `re.fullmatch(r"[A-Z]\.", token)`. -/
def isUpperDotFull : List Char → Bool
  | [c, d] => isUpperC c && d = '.'
  | _ => false

/-- `re.fullmatch(r"\(\d+\)", token)`. -/
def isParenDigitsFull : List Char → Bool
  | c :: rest =>
    c = '(' &&
      (let ds := rest.takeWhile isDigitC
       !ds.isEmpty && rest.dropWhile isDigitC = [')'])
  | [] => false

/-- `re.fullmatch(r"\([a-z]\)", token)`. -/
def isParenLowerFull : List Char → Bool
  | [c, d, e] => c = '(' && isLowerC d && e = ')'
  | _ => false

/-- `classify_level` (lines 108-119).  Note the final `return 0`: markers
outside the four known shapes get the silent default level 0; no exception
is raised. -/
def classify_level (token : List Char) : Nat :=
  let t := stripChars token
  if sectionLit.isPrefixOf t then 1
  else if isUpperDotFull t then 2
  else if isParenDigitsFull t then 3
  else if isParenLowerFull t then 4
  else 0

/-!  Output tree nodes (`{"marker": ..., "text": ..., "children": [...]}`). -/

inductive Node where
  | node (marker : List Char) (text : List Char) (children : List Node)

instance : Inhabited Node := ⟨.node [] [] []⟩

def Node.marker : Node → List Char
  | .node m _ _ => m

def Node.text : Node → List Char
  | .node _ t _ => t

def Node.children : Node → List Node
  | .node _ _ c => c

/-!
Hierarchy building (`parse_legal_structure`, lines 123-157).  The Python
code mutates node dictionaries in place: a node is appended to its parent's
`children` (or to `root`) as soon as it is created, and later receives its
own children by mutation while it sits on the stack.  The functional
embedding keeps the still-open nodes as `Frame`s (top of stack at the head
of the list) and attaches a node to its parent (or to the root accumulator)
when it is closed, i.e. popped; this yields exactly the same tree.
-/

structure Frame where
  marker : List Char
  text : List Char
  children : List Node

def closeFrame (f : Frame) : Node := .node f.marker f.text f.children

/-- Pop `n` frames.  Each popped frame becomes the last child of the frame
below it, or a new root when it was the bottom frame. -/
def popN : Nat → List Node → List Frame → List Node × List Frame
  | 0, roots, stack => (roots, stack)
  | n + 1, roots, stack =>
    match stack with
    | [] => (roots, [])
    | [f] => popN n (roots ++ [closeFrame f]) []
    | f :: g :: gs => popN n roots (⟨g.marker, g.text, g.children ++ [closeFrame f]⟩ :: gs)

/-- The loop `while len(stack) >= level: stack.pop()` (lines 147-148).  For
`level ≥ 1` it pops until the stack length drops below `level`, i.e. exactly
`stack.length + 1 - level` times (truncated subtraction).  The tokenizer
only produces tokens of levels 1-4, so `level = 0` (where the Python loop
would pop an empty list and raise `IndexError`) is unreachable from
`parse_legal_structure`. -/
def popWhile (level : Nat) (roots : List Node) (stack : List Frame) :
    List Node × List Frame :=
  popN (stack.length + 1 - level) roots stack

/-- Close every remaining open frame at the end of the marker loop.  (In the
Python code the frames are already linked into the tree by mutation; here
this realises those links.) -/
def finalize (roots : List Node) (stack : List Frame) : List Node :=
  (popN stack.length roots stack).1

/-- One iteration of the marker loop (lines 131-155) acting on
`(root, stack)`, given the `(token, content)` pair of the current match. -/
def step (st : List Node × List Frame) (pr : List Char × List Char) :
    List Node × List Frame :=
  let level := classify_level pr.1
  let rs := popWhile level st.1 st.2
  (rs.1, ⟨pr.1, pr.2, []⟩ :: rs.2)

/-- Pair each match with the end of its text span: the start of the next
match, or `len(text)` for the last match (line 135). -/
def spanEnds : List RMatch → Nat → List (RMatch × Nat)
  | [], _ => []
  | [m], len => [(m, len)]
  | m :: m' :: rest, len => (m, m'.start) :: spanEnds (m' :: rest) len

/-- The `(token, content)` pairs consumed by the marker loop:
`token = match.group().strip()`, `content = text[start:end].strip()`. -/
def spanPairs (text : List Char) : List (List Char × List Char) :=
  (spanEnds (scan text) text.length).map
    (fun pr => (pr.1.token, stripChars (slice text pr.1.start pr.2)))

/-- `parse_legal_structure` (lines 123-157). -/
def parse_legal_structure (text : List Char) : List Node :=
  let st := (spanPairs text).foldl step ([], [])
  finalize st.1 st.2

/-!  `collapse_table_of_contents` (lines 159-190). -/

/-- A root node qualifies as a TOC entry: `Section` marker, no children,
text shorter than 200 characters (lines 168-172). -/
def tocQualifies (n : Node) : Bool :=
  sectionLit.isPrefixOf n.marker && n.children.isEmpty && decide (n.text.length < 200)

def tocMarker : List Char := ['T', 'O', 'C']

def tocText : List Char :=
  ['T', 'a', 'b', 'l', 'e', ' ', 'o', 'f', ' ', 'C', 'o', 'n', 't', 'e', 'n', 't', 's']

/-- `collapse_table_of_contents` (lines 159-190).  The Python loop collects
the maximal qualifying prefix and sets `body_start_index` to the index of
the first non-qualifying node via `break`.  When the loop runs off the end
(every root qualifies), `body_start_index` keeps its initial value 0, so
`nodes[body_start_index:]` is the whole original list — the collected
entries then appear both inside the TOC node and after it. -/
def collapse_table_of_contents (nodes : List Node) : List Node :=
  let entries := nodes.takeWhile tocQualifies
  let rest := nodes.dropWhile tocQualifies
  if entries.isEmpty then nodes
  else if rest.isEmpty then Node.node tocMarker tocText entries :: nodes
  else Node.node tocMarker tocText entries :: rest

/-!  `normalize_text` (lines 76-104). -/

/-- One pass of `re.sub(r"(\w+)-\n(\w+)", r"\1\2", text)` (line 78): scan
left to right; at each position, if a maximal non-empty word run is followed
by `-`, a newline and a non-empty word run, the hyphen and newline are
deleted and scanning resumes after the second run; otherwise advance one
character.  (`(\w+)` can only match the maximal run here: a shorter run
would put a word character where `-` is required.)  `fuel` bounds the
recursion; each step consumes at least one input character, so `s.length`
fuel suffices. -/
def dehyphGo : Nat → List Char → List Char
  | 0, s => s
  | _ + 1, [] => []
  | fuel + 1, c :: rest =>
    if isWordC c then
      match List.dropWhile isWordC (c :: rest) with
      | d :: e :: r2 =>
        if d = '-' && e = '\n' then
          let w2 := r2.takeWhile isWordC
          if w2.isEmpty then c :: dehyphGo fuel rest
          else List.takeWhile isWordC (c :: rest) ++ w2 ++ dehyphGo fuel (r2.dropWhile isWordC)
        else c :: dehyphGo fuel rest
      | _ => c :: dehyphGo fuel rest
    else c :: dehyphGo fuel rest

/-- The de-hyphenation step of `normalize_text` (line 78). -/
def dehyphenate (s : List Char) : List Char := dehyphGo s.length s

/-- Python `text.split("\n")` (keeps empty segments). -/
def splitNlGo (cur : List Char) : List Char → List (List Char)
  | [] => [cur.reverse]
  | c :: rest => if c = '\n' then cur.reverse :: splitNlGo [] rest else splitNlGo (c :: cur) rest

def splitNl (s : List Char) : List (List Char) := splitNlGo [] s

/-- `re.match(r"^(Section\s+\d+\.|[A-Z]\.|\(\d+\)|\([a-z]\))", stripped)`
(line 90): one of the four marker shapes at the start of the line (no
lookahead here, unlike the tokenizer). -/
def startsWithMarker (s : List Char) : Bool :=
  (matchSection s).isSome || (matchUpper s).isSome ||
    (match s with
     | c :: rest =>
       c = '(' &&
         (let ds := rest.takeWhile isDigitC
          !ds.isEmpty &&
            (match rest.dropWhile isDigitC with
             | d :: _ => d = ')'
             | [] => false))
     | [] => false) ||
    (match s with
     | c :: d :: e :: _ => c = '(' && isLowerC d && e = ')'
     | _ => false)

/-- The line-reconstruction loop of `normalize_text` (lines 80-97), with the
`rebuilt` accumulator kept in reverse order (its head is `rebuilt[-1]`). -/
def rebuildLines (acc : List (List Char)) : List (List Char) → List (List Char)
  | [] => acc.reverse
  | line :: rest =>
    let s := stripChars line
    if s.isEmpty then rebuildLines acc rest
    else if startsWithMarker s then rebuildLines (('\n' :: s) :: acc) rest
    else
      match acc with
      | [] => rebuildLines [s] rest
      | last :: prior => rebuildLines ((last ++ ' ' :: s) :: prior) rest

/-- Python `"\n".join(...)`. -/
def joinNl : List (List Char) → List Char
  | [] => []
  | [l] => l
  | l :: ls => l ++ '\n' :: joinNl ls

/-- `re.sub(r"[ \t]+", " ", text)` (line 102). -/
def collapseSpacesGo : Nat → List Char → List Char
  | 0, s => s
  | _ + 1, [] => []
  | fuel + 1, c :: rest =>
    if c = ' ' || c = '\t' then
      ' ' :: collapseSpacesGo fuel (rest.dropWhile (fun d => d = ' ' || d = '\t'))
    else c :: collapseSpacesGo fuel rest

def collapseSpaces (s : List Char) : List Char := collapseSpacesGo s.length s

/-- `normalize_text` (lines 76-104). -/
def normalize_text (text : List Char) : List Char :=
  let t1 := dehyphenate text
  let t2 := joinNl (rebuildLines [] (splitNl t1))
  stripChars (collapseSpaces t2)

/-!  Checkers and spec-side predicates used by the claim theorems. -/

/-- Direct children all have a level strictly greater than `l`. -/
def childLevelsAbove (l : Nat) (cs : List Node) : Bool :=
  cs.all (fun c => decide (l < classify_level c.marker))

mutual

/-- Nesting invariant of spec section 3: every direct child of a non-TOC
node has a level strictly greater than its parent's. -/
def nodeNestOK : Node → Bool
  | .node m _ cs =>
    (m == tocMarker || childLevelsAbove (classify_level m) cs) && forestNestOK cs

def forestNestOK : List Node → Bool
  | [] => true
  | n :: ns => nodeNestOK n && forestNestOK ns

end

mutual

/-- Implicit invariant of claim C10: each node's `text` starts with its
`marker`. -/
def nodeMarkOK : Node → Bool
  | .node m t cs => m.isPrefixOf t && forestMarkOK cs

def forestMarkOK : List Node → Bool
  | [] => true
  | n :: ns => nodeMarkOK n && forestMarkOK ns

end

def frameOK (f : Frame) : Bool := f.marker.isPrefixOf f.text && forestMarkOK f.children

mutual

/-- Flatten a node to its `(marker, text)` pairs in document (preorder)
order. -/
def flatNode : Node → List (List Char × List Char)
  | .node m t cs => (m, t) :: flatForest cs

def flatForest : List Node → List (List Char × List Char)
  | [] => []
  | n :: ns => flatNode n ++ flatForest ns

end

/-- Flatten of an open frame: its own pair followed by its closed children. -/
def flatFrame (f : Frame) : List (List Char × List Char) :=
  (f.marker, f.text) :: flatForest f.children

/-- Flatten of the open-ancestor stack, bottom of the stack first. -/
def flatStack (stack : List Frame) : List (List Char × List Char) :=
  stack.reverse.flatMap flatFrame

/-- The `(root, stack)` state after the marker loop has processed the first
`k` markers of `text` (used to observe intermediate stack states). -/
def stackAfter (text : List Char) (k : Nat) : List Frame :=
  (((spanPairs text).take k).foldl step ([], [])).2

/-- Concatenation of the raw (untrimmed) spans `text[start_i:start_{i+1}]`
(last span runs to the end of the text). -/
def rawSpanConcat (text : List Char) : List Char :=
  ((spanEnds (scan text) text.length).map (fun pr => slice text pr.1.start pr.2)).flatten

/-- Position ordering of a match list: every match starts at or after
`lo`, spans forward, ends within the text, and the next match starts at or
after its end. -/
def ChainedFrom (len : Nat) : Nat → List RMatch → Prop
  | _, [] => True
  | lo, m :: ms => lo ≤ m.start ∧ m.start ≤ m.stop ∧ m.stop ≤ len ∧ ChainedFrom len m.stop ms

/-- The four marker shapes accepted by `classify_level`, written
declaratively (spec section 4.3): a `Section` prefix, an uppercase letter
followed by a period, parenthesized digits, or a parenthesized lowercase
letter. -/
def knownShape (t : List Char) : Prop :=
  (∃ rest, t = sectionLit ++ rest) ∨
    (∃ c, isUpperC c = true ∧ t = [c, '.']) ∨
    (∃ ds, ds ≠ [] ∧ (∀ c ∈ ds, isDigitC c = true) ∧ t = '(' :: ds ++ [')']) ∨
    (∃ c, isLowerC c = true ∧ t = ['(', c, ')'])

/-!  Concrete inputs used by the claim theorems. -/

/-- A text whose markers skip level 2: `Section 1.` (level 1) followed by
two level-3 paragraph markers. -/
def textSkip : List Char := "Section 1. Intro\n(1) First\n(2) Second".toList

/-- The Scenario A input of the spec (section 8). -/
def inputA : List Char :=
  "Section 1. Short summary.\nSection 2. Another short one.\nSection 3. ".toList
    ++ List.replicate 250 'x' ++ " (1) First point (a) Sub point.".toList

/-- A qualifying TOC entry (level-1 marker, childless, short text). -/
def nodeC5 : Node := .node "Section 1.".toList "Section 1. Hi".toList []

/-- The inline cross-reference line of Scenario C (spec section 8). -/
def lineC : List Char := "See subsection (1) of Section 4 for details.".toList

/-!  Claim theorems. -/

/-- C1: the claim states that in the tree returned by
`parse_legal_structure` followed by `collapse_table_of_contents` every
direct child of a non-TOC node has a level strictly greater than its
parent's.  The code violates this: on `textSkip` (a `Section 1.` whose
paragraphs skip level 2) the builder pops by stack LENGTH rather than by
level, so the level-3 marker `(2)` is attached as a child of the level-3
marker `(1)`. -/
theorem c1_nesting_violation :
    (forestNestOK (collapse_table_of_contents (parse_legal_structure textSkip)) = false)
      ∧ (parse_legal_structure textSkip).map Node.marker = ["Section 1.".toList]
      ∧ (((parse_legal_structure textSkip).getD 0 default).children.map Node.marker)
          = ["(1)".toList]
      ∧ ((((parse_legal_structure textSkip).getD 0 default).children.getD 0
            default).children.map Node.marker) = ["(2)".toList] := by
  decide

/-- C2: the claim states that the builder pops the open-ancestor stack
while the top entry's LEVEL is `>= L` and that the stack never holds two
entries of the same level.  The code pops while the stack LENGTH is
`>= level` (line 147), so after the three markers of `textSkip` (levels
1, 3, 3) the level-3 top `(1)` is not popped when the second level-3
marker arrives, and the stack holds two level-3 entries at once. -/
theorem c2_stack_levels :
    ((stackAfter textSkip 2).map (fun f => classify_level f.marker) = [3, 1])
      ∧ ((stackAfter textSkip 3).map (fun f => classify_level f.marker) = [3, 3, 1])
      ∧ ¬ ((stackAfter textSkip 3).map (fun f => classify_level f.marker)).Nodup := by
  decide

/-- C3 counterexample: on the Scenario A input the claim asserts the
`Section 3.` root node contains a level-3 child `(1)` (with a level-4 child
`(a)`).  In fact the pipeline leaves `Section 3.` childless: `(1)` and
`(a)` sit mid-line in the normalized text, and the tokenizer only matches
at line starts. -/
theorem c3_counterexample :
    ((collapse_table_of_contents (parse_legal_structure (normalize_text inputA))).map
        Node.marker = [tocMarker, "Section 3.".toList])
      ∧ ((collapse_table_of_contents (parse_legal_structure (normalize_text inputA))).map
          (fun n => n.children.length)) = [2, 0] := by
  decide

/-- C3 amended: the pipeline returns one TOC node with exactly two children
(Section 1 and Section 2) followed by the root node for Section 3, which
has no children (the inline `(1)` and `(a)` are not tokenized because they
are not at a line start). -/
theorem c3_amended :
    ((collapse_table_of_contents (parse_legal_structure (normalize_text inputA))).map
        Node.marker = [tocMarker, "Section 3.".toList])
      ∧ (((collapse_table_of_contents (parse_legal_structure
            (normalize_text inputA))).getD 0 default).children.map Node.marker
          = ["Section 1.".toList, "Section 2.".toList])
      ∧ (((collapse_table_of_contents (parse_legal_structure
            (normalize_text inputA))).getD 1 default).children.length = 0) := by
  decide

/-- C5: the claim states that the collected TOC prefix is replaced, with no
node duplicated.  When EVERY root node qualifies, the Python loop never
executes its `break`, `body_start_index` stays 0, and `nodes[0:]` is the
whole list — the qualifying node appears both inside the TOC node and after
it. -/
theorem c5_duplicate_node :
    collapse_table_of_contents [nodeC5]
      = [Node.node tocMarker tocText [nodeC5], nodeC5] := by
  rfl

/-- C6 counterexample: for a marker outside the four known shapes the claim
demands a loud internal-invariant failure; `classify_level` instead returns
normally with the silent default level 0 (line 119 `return 0`). -/
theorem c6_counterexample : classify_level "foo".toList = 0 := by rfl

/-- C8 counterexample: the claim states a hyphen-newline between two
digits-only tokens is left unjoined; in fact `\w` matches digits, so the
de-hyphenation step joins `12-\n34` into `1234`. -/
theorem c8_counterexample :
    dehyphenate "12-\n34".toList = "1234".toList
      ∧ dehyphenate "12-\n34".toList ≠ "12-\n34".toList := by
  decide

/-- C8 amended: de-hyphenation joins `word-<newline>word` whenever both
sides are word characters, where word characters include digits (so
digits-only tokens are joined too); it does not join across punctuation.
An input containing `consti-\ntution` normalizes to contain
`constitution` as one token. -/
theorem c8_amended :
    dehyphenate "consti-\ntution".toList = "constitution".toList
      ∧ List.IsInfix "constitution".toList
          (normalize_text "The consti-\ntution applies.".toList)
      ∧ dehyphenate "12-\n34".toList = "1234".toList
      ∧ dehyphenate "end.-\nNext".toList = "end.-\nNext".toList := by
  refine ⟨by decide, ⟨"The ".toList, " applies.".toList, by decide⟩, by decide, by decide⟩

/-- A synthetic TOC node never qualifies as a TOC entry: its marker `TOC`
does not start with `Section`. -/
theorem tocNode_not_qualifies (ts : List Char) (cs : List Node) :
    tocQualifies (Node.node tocMarker ts cs) = false := by
  have h : sectionLit.isPrefixOf tocMarker = false := rfl
  simp [tocQualifies, Node.marker, h]

/-- C7: `collapse_table_of_contents` is idempotent — applying the collapse
pass to its own output returns it unchanged, because the synthetic TOC node
does not itself qualify as a TOC entry. -/
theorem c7_collapse_idempotent (nodes : List Node) :
    collapse_table_of_contents (collapse_table_of_contents nodes)
      = collapse_table_of_contents nodes := by
  have htoc : ∀ (X : List Node),
      collapse_table_of_contents
          (Node.node tocMarker tocText (nodes.takeWhile tocQualifies) :: X)
        = Node.node tocMarker tocText (nodes.takeWhile tocQualifies) :: X := by
    intro X
    have hfq := tocNode_not_qualifies tocText (nodes.takeWhile tocQualifies)
    simp [collapse_table_of_contents, List.takeWhile_cons, hfq]
  by_cases he : nodes.takeWhile tocQualifies = []
  · have h1 : collapse_table_of_contents nodes = nodes := by
      simp [collapse_table_of_contents, he]
    rw [h1, h1]
  · by_cases hr : nodes.dropWhile tocQualifies = []
    · have h1 : collapse_table_of_contents nodes
          = Node.node tocMarker tocText (nodes.takeWhile tocQualifies) :: nodes := by
        simp [collapse_table_of_contents, he, hr]
      rw [h1, htoc]
    · have h1 : collapse_table_of_contents nodes
          = Node.node tocMarker tocText (nodes.takeWhile tocQualifies)
              :: nodes.dropWhile tocQualifies := by
        simp [collapse_table_of_contents, he, hr]
      rw [h1, htoc]

/-- The declarative shape description agrees with the boolean tests used by
`classify_level`. -/
theorem knownShape_iff (t : List Char) :
    knownShape t ↔
      (sectionLit.isPrefixOf t || isUpperDotFull t
        || isParenDigitsFull t || isParenLowerFull t) = true := by
  constructor
  · rintro (⟨rest, rfl⟩ | ⟨c, hc, rfl⟩ | ⟨ds, hne, hds, rfl⟩ | ⟨c, hc, rfl⟩)
    · have : sectionLit.isPrefixOf (sectionLit ++ rest) = true :=
        List.isPrefixOf_iff_prefix.mpr ⟨rest, rfl⟩
      simp [this]
    · simp [isUpperDotFull, hc]
    · have h1 : (ds ++ [')']).takeWhile isDigitC = ds := by
        rw [List.takeWhile_append_of_pos (by intro a ha; exact hds a ha)]
        simp [isDigitC]
      have h2 : (ds ++ [')']).dropWhile isDigitC = [')'] := by
        rw [List.dropWhile_append_of_pos (by intro a ha; exact hds a ha)]
        simp [isDigitC]
      simp [isParenDigitsFull, h1, h2, hne]
    · simp [isParenLowerFull, hc]
  · intro h
    rcases Bool.or_eq_true_iff.mp h with h | h4
    · rcases Bool.or_eq_true_iff.mp h with h | h3
      · rcases Bool.or_eq_true_iff.mp h with h1 | h2
        · exact Or.inl (by
            obtain ⟨rest, hrest⟩ := List.isPrefixOf_iff_prefix.mp h1
            exact ⟨rest, hrest.symm⟩)
        · refine Or.inr (Or.inl ?_)
          match t, h2 with
          | [c, d], h2 => ?_
          rw [isUpperDotFull] at h2
          rcases Bool.and_eq_true_iff.mp h2 with ⟨hu, hd⟩
          exact ⟨c, hu, by rw [show d = '.' from by simpa using hd]⟩
      · refine Or.inr (Or.inr (Or.inl ?_))
        match t, h3 with
        | c :: rest, h3 => ?_
        rw [isParenDigitsFull] at h3
        rcases Bool.and_eq_true_iff.mp h3 with ⟨hc, h3b⟩
        rcases Bool.and_eq_true_iff.mp h3b with ⟨hne, hdrop⟩
        refine ⟨rest.takeWhile isDigitC, by simpa using hne,
          fun c hc => List.mem_takeWhile_imp hc, ?_⟩
        have hc' : c = '(' := by simpa using hc
        have hsplit : rest.takeWhile isDigitC ++ [')'] = rest := by
          conv_rhs => rw [← List.takeWhile_append_dropWhile (p := isDigitC) (l := rest)]
          rw [show rest.dropWhile isDigitC = [')'] from by simpa using hdrop]
        rw [hc']
        conv_lhs => rw [← hsplit]
        exact (List.cons_append _ _ _).symm
    · refine Or.inr (Or.inr (Or.inr ?_))
      match t, h4 with
      | [c, d, e], h4 => ?_
      rw [isParenLowerFull] at h4
      rcases Bool.and_eq_true_iff.mp h4 with ⟨h4a, he⟩
      rcases Bool.and_eq_true_iff.mp h4a with ⟨hc, hd⟩
      exact ⟨d, hd, by rw [show c = '(' from by simpa using hc,
        show e = ')' from by simpa using he]⟩

/-- C6 amended: for every marker outside the four known shapes,
`classify_level` returns the silent default level 0 (an out-of-range
sentinel); it does not signal a failure. -/
theorem c6_amended (tok : List Char) (h : ¬ knownShape (stripChars tok)) :
    classify_level tok = 0 := by
  rw [knownShape_iff] at h
  simp only [Bool.or_eq_true, not_or] at h
  obtain ⟨⟨⟨h1, h2⟩, h3⟩, h4⟩ := h
  simp only [classify_level]
  rw [if_neg (by simpa using h1), if_neg (by simpa using h2),
    if_neg (by simpa using h3), if_neg (by simpa using h4)]

/-- C6 amended, witness: the marker `foo` is outside the four shapes and is
classified as level 0. -/
theorem c6_amended_witness :
    ¬ knownShape (stripChars "foo".toList) ∧ classify_level "foo".toList = 0 := by
  have h : ¬ knownShape (stripChars "foo".toList) := by
    rw [knownShape_iff]; decide
  exact ⟨h, c6_amended _ h⟩

/-!
Structural lemmas about the tokenizer, leading to the general theorems for
claims C4, C9 and C10.
-/

theorem isSpc_false_of_upper {c : Char} (h : isUpperC c = true) : isSpc c = false := by
  cases hs : isSpc c
  · rfl
  · exfalso
    have hd : ((((c = ' ' ∨ c = '\t') ∨ c = '\n') ∨ c = '\r') ∨ c = '\x0b') ∨ c = '\x0c' := by
      simpa [isSpc] using hs
    rcases hd with ((((rfl | rfl) | rfl) | rfl) | rfl) | rfl <;> exact absurd h (by decide)

theorem isSpc_false_of_digit {c : Char} (h : isDigitC c = true) : isSpc c = false := by
  cases hs : isSpc c
  · rfl
  · exfalso
    have hd : ((((c = ' ' ∨ c = '\t') ∨ c = '\n') ∨ c = '\r') ∨ c = '\x0b') ∨ c = '\x0c' := by
      simpa [isSpc] using hs
    rcases hd with ((((rfl | rfl) | rfl) | rfl) | rfl) | rfl <;> exact absurd h (by decide)

theorem dropLit_eq_some :
    ∀ {lit s r : List Char}, dropLit lit s = some r → s = lit ++ r := by
  intro lit
  induction lit with
  | nil => intro s r h; simp only [dropLit, Option.some.injEq] at h; rw [h]; rfl
  | cons c cs ih =>
    intro s r h
    match s with
    | [] => exact absurd h (by simp [dropLit])
    | d :: s' =>
      simp only [dropLit] at h
      split at h
      · next hcd => rw [List.cons_append, ← hcd, ih h]
      · exact absurd h (by simp)

/-- Shape of a successful `matchSection`: the input splits as the token
followed by the rest; the token starts with the non-whitespace `S` and ends
with the non-whitespace `.`. -/
theorem matchSection_spec {s tok rest : List Char}
    (h : matchSection s = some (tok, rest)) :
    s = tok ++ rest
      ∧ (∃ c cs, tok = c :: cs ∧ isSpc c = false)
      ∧ (∃ d, tok.getLast? = some d ∧ isSpc d = false) := by
  simp only [matchSection] at h
  split at h
  · exact absurd h (by simp)
  next s1 hdl =>
    split at h
    · exact absurd h (by simp)
    next hws =>
      split at h
      · exact absurd h (by simp)
      next hds =>
        split at h
        · next d s4 hs3 =>
          split at h
          · next hd =>
            simp only [Option.some.injEq, Prod.mk.injEq] at h
            obtain ⟨htok, hrest⟩ := h
            subst hd
            have h1 : s = sectionLit ++ s1 := dropLit_eq_some hdl
            have h2 : List.takeWhile isSpc s1 ++ List.dropWhile isSpc s1 = s1 :=
              List.takeWhile_append_dropWhile isSpc s1
            have h3 : List.takeWhile isDigitC (List.dropWhile isSpc s1)
                ++ List.dropWhile isDigitC (List.dropWhile isSpc s1)
                  = List.dropWhile isSpc s1 :=
              List.takeWhile_append_dropWhile isDigitC (List.dropWhile isSpc s1)
            refine ⟨?_, ?_, ?_⟩
            · rw [← htok, ← hrest, h1]
              conv_lhs => rw [← h2, ← h3, hs3]
              simp [List.append_assoc]
            · exact ⟨'S', _, by rw [← htok]; rfl, by decide⟩
            · refine ⟨'.', ?_, by decide⟩
              rw [← htok, show sectionLit ++ List.takeWhile isSpc s1 ++
                  List.takeWhile isDigitC (List.dropWhile isSpc s1) ++ ['.']
                    = (sectionLit ++ List.takeWhile isSpc s1 ++
                      List.takeWhile isDigitC (List.dropWhile isSpc s1)) ++ ['.'] from by
                  simp [List.append_assoc]]
              exact List.getLast?_concat _
          · exact absurd h (by simp)
        · exact absurd h (by simp)

/-- Shape of a successful `matchUpper`. -/
theorem matchUpper_spec {s tok rest : List Char}
    (h : matchUpper s = some (tok, rest)) :
    s = tok ++ rest
      ∧ (∃ c cs, tok = c :: cs ∧ isSpc c = false)
      ∧ (∃ d, tok.getLast? = some d ∧ isSpc d = false) := by
  match s, h with
  | c :: d :: r, h => ?_
  simp only [matchUpper] at h
  split at h
  · next hcond =>
    rcases Bool.and_eq_true_iff.mp hcond with ⟨hu, hd⟩
    simp only [Option.some.injEq, Prod.mk.injEq] at h
    obtain ⟨htok, hrest⟩ := h
    rw [← htok, ← hrest]
    have hd' : d = '.' := by simpa using hd
    exact ⟨rfl, ⟨c, _, rfl, isSpc_false_of_upper hu⟩, ⟨d, rfl, by rw [hd']; decide⟩⟩
  · exact absurd h (by simp)

/-- Shape of a successful `matchParenDigits`: the input splits as the
token, the matched trailing whitespace run, and the rest. -/
theorem matchParenDigits_spec {s tok rest : List Char}
    (h : matchParenDigits s = some (tok, rest)) :
    (∃ mid, s = tok ++ mid ++ rest ∧ mid.all isSpc = true)
      ∧ (∃ c cs, tok = c :: cs ∧ isSpc c = false)
      ∧ (∃ d, tok.getLast? = some d ∧ isSpc d = false) := by
  match s, h with
  | c :: s1, h => ?_
  simp only [matchParenDigits] at h
  split at h
  · next hc =>
    split at h
    · exact absurd h (by simp)
    · next hds =>
      split at h
      · next d s3 hs2 =>
        split at h
        · next hd =>
          split at h
          · exact absurd h (by simp)
          · next hws2 =>
            split at h
            · next e s4' hs4 =>
              split at h
              · next hupper =>
                simp only [Option.some.injEq, Prod.mk.injEq] at h
                obtain ⟨htok, hrest⟩ := h
                subst hc; subst hd
                have h2 : List.takeWhile isDigitC s1 ++ List.dropWhile isDigitC s1 = s1 :=
                  List.takeWhile_append_dropWhile isDigitC s1
                have h3 : List.takeWhile isSpc s3 ++ List.dropWhile isSpc s3 = s3 :=
                  List.takeWhile_append_dropWhile isSpc s3
                refine ⟨⟨List.takeWhile isSpc s3, ?_, List.all_takeWhile⟩,
                  ⟨'(', _, by rw [← htok]; rfl, by decide⟩,
                  ⟨')', by rw [← htok]; exact List.getLast?_concat _, by decide⟩⟩
                rw [← htok, ← hrest]
                conv_lhs => rw [← h2, hs2, ← h3]
                simp [List.append_assoc]
              · exact absurd h (by simp)
            · exact absurd h (by simp)
        · exact absurd h (by simp)
      · exact absurd h (by simp)
  · exact absurd h (by simp)

/-- Shape of a successful `matchParenLower`. -/
theorem matchParenLower_spec {s tok rest : List Char}
    (h : matchParenLower s = some (tok, rest)) :
    (∃ mid, s = tok ++ mid ++ rest ∧ mid.all isSpc = true)
      ∧ (∃ c cs, tok = c :: cs ∧ isSpc c = false)
      ∧ (∃ d, tok.getLast? = some d ∧ isSpc d = false) := by
  match s, h with
  | c :: d :: e :: s3, h => ?_
  simp only [matchParenLower] at h
  split at h
  · next hcde =>
    split at h
    · exact absurd h (by simp)
    · next hws =>
      split at h
      · next f s4' hs4 =>
        split at h
        · next hupper =>
          rcases Bool.and_eq_true_iff.mp hcde with ⟨hcd, he⟩
          rcases Bool.and_eq_true_iff.mp hcd with ⟨hc, _⟩
          simp only [Option.some.injEq, Prod.mk.injEq] at h
          obtain ⟨htok, hrest⟩ := h
          have hc' : c = '(' := by simpa using hc
          have he' : e = ')' := by simpa using he
          have h3 : List.takeWhile isSpc s3 ++ List.dropWhile isSpc s3 = s3 :=
            List.takeWhile_append_dropWhile isSpc s3
          refine ⟨⟨List.takeWhile isSpc s3, ?_, List.all_takeWhile⟩,
            ⟨c, _, by rw [← htok], by rw [hc']; decide⟩,
            ⟨e, by rw [← htok]; rfl, by rw [he']; decide⟩⟩
          rw [← htok, ← hrest]
          conv_lhs => rw [show c :: d :: e :: s3 = [c, d, e] ++ s3 from rfl, ← h3]
          simp [List.append_assoc]
        · exact absurd h (by simp)
      · exact absurd h (by simp)
  · exact absurd h (by simp)

/-- Shape of a successful `tryCore` match (any of the four alternatives). -/
theorem tryCore_spec {s tok rest : List Char}
    (h : tryCore s = some (tok, rest)) :
    (∃ mid, s = tok ++ mid ++ rest ∧ mid.all isSpc = true)
      ∧ (∃ c cs, tok = c :: cs ∧ isSpc c = false)
      ∧ (∃ d, tok.getLast? = some d ∧ isSpc d = false) := by
  simp only [tryCore] at h
  split at h
  · next r h1 =>
    have hr : r = (tok, rest) := Option.some.inj h
    subst hr
    obtain ⟨he, hhd, hlast⟩ := matchSection_spec h1
    exact ⟨⟨[], by rw [he]; simp, by simp⟩, hhd, hlast⟩
  · split at h
    · next r h2 =>
      have hr : r = (tok, rest) := Option.some.inj h
      subst hr
      obtain ⟨he, hhd, hlast⟩ := matchUpper_spec h2
      exact ⟨⟨[], by rw [he]; simp, by simp⟩, hhd, hlast⟩
    · split at h
      · next r h3 =>
        have hr : r = (tok, rest) := Option.some.inj h
        subst hr
        exact matchParenDigits_spec h3
      · exact matchParenLower_spec h

/-- Shape of a successful `tryMatchAt`: the suffix at `p` splits as a
whitespace run, the token, the matched trailing whitespace (alternatives
3-4) and the rest; the match starts at `p` and ends after the matched
whitespace. -/
theorem tryMatchAt_spec {text : List Char} {p : Nat} {m : RMatch}
    (h : tryMatchAt text p = some m) :
    m.start = p
      ∧ ∃ ws mid rest,
          text.drop p = ws ++ m.token ++ mid ++ rest
            ∧ ws.all isSpc = true ∧ mid.all isSpc = true
            ∧ (∃ c cs, m.token = c :: cs ∧ isSpc c = false)
            ∧ (∃ d, m.token.getLast? = some d ∧ isSpc d = false)
            ∧ m.stop = p + ws.length + m.token.length + mid.length := by
  simp only [tryMatchAt] at h
  split at h
  · split at h
    · next pr hcore =>
      have hm : (⟨p, text.length - pr.2.length, pr.1⟩ : RMatch) = m := Option.some.inj h
      subst hm
      obtain ⟨⟨mid, hsplit, hmid⟩, hhd, hlast⟩ := tryCore_spec hcore
      have hsplit2 : text.drop p
          = List.takeWhile isSpc (text.drop p) ++ (pr.1 ++ mid ++ pr.2) := by
        conv_lhs => rw [← List.takeWhile_append_dropWhile isSpc (text.drop p)]
        rw [hsplit]
      refine ⟨rfl, List.takeWhile isSpc (text.drop p), mid, pr.2,
        ?_, List.all_takeWhile, hmid, hhd, hlast, ?_⟩
      · conv_lhs => rw [hsplit2]
        simp [List.append_assoc]
      have hlens := congrArg List.length hsplit2
      simp only [List.length_drop, List.length_append] at hlens
      have htokpos : 1 ≤ pr.1.length := by
        obtain ⟨c, cs, hc, _⟩ := hhd
        rw [hc]; simp
      show text.length - pr.2.length = p + _ + pr.1.length + mid.length
      omega
    · exact absurd h (by simp)
  · exact absurd h (by simp)

/-- Bounds of a successful match: it starts at the probed position, spans
forward, and ends within the text. -/
theorem tryMatchAt_bounds {text : List Char} {p : Nat} {m : RMatch}
    (h : tryMatchAt text p = some m) :
    m.start = p ∧ p ≤ m.stop ∧ m.stop ≤ text.length := by
  obtain ⟨hstart, ws, mid, rest, hsplit, _, _, hhd, _, hstop⟩ := tryMatchAt_spec h
  have hlens := congrArg List.length hsplit
  simp only [List.length_drop, List.length_append] at hlens
  obtain ⟨c, cs, hc, _⟩ := hhd
  have htokpos : 1 ≤ m.token.length := by rw [hc]; simp
  exact ⟨hstart, by omega, by omega⟩

/-- The tokenizer never matches at a position that is not a line start. -/
theorem tryMatchAt_none_of_not_lineStart {text : List Char} {p : Nat}
    (h : isLineStart text p = false) : tryMatchAt text p = none := by
  simp [tryMatchAt, h]

/-- Every match the scanner emits is a `tryMatchAt` success at its own
start position. -/
theorem scanFrom_mem {text : List Char} :
    ∀ {fuel p : Nat} {m : RMatch}, m ∈ scanFrom text fuel p →
      tryMatchAt text m.start = some m := by
  intro fuel
  induction fuel with
  | zero => intro p m h; exact absurd h (by simp [scanFrom])
  | succ fuel ih =>
    intro p m h
    simp only [scanFrom] at h
    split at h
    · exact absurd h (by simp)
    · split at h
      · next m0 hm0 =>
        rcases List.mem_cons.mp h with rfl | hmem
        · rw [show m.start = p from (tryMatchAt_spec hm0).1]
          exact hm0
        · exact ih hmem
      · exact ih h

theorem chainedFrom_mono {len lo lo' : Nat} {ms : List RMatch} (h : lo' ≤ lo)
    (hch : ChainedFrom len lo ms) : ChainedFrom len lo' ms := by
  cases ms with
  | nil => trivial
  | cons m ms =>
    obtain ⟨h1, h2, h3, h4⟩ := hch
    exact ⟨le_trans h h1, h2, h3, h4⟩

/-- The scanner's output is position-ordered and non-overlapping. -/
theorem scanFrom_chained {text : List Char} :
    ∀ {fuel p : Nat}, ChainedFrom text.length p (scanFrom text fuel p) := by
  intro fuel
  induction fuel with
  | zero => intro p; simp only [scanFrom]; trivial
  | succ fuel ih =>
    intro p
    simp only [scanFrom]
    split
    · trivial
    · split
      · next m0 hm0 =>
        obtain ⟨h1, h2, h3⟩ := tryMatchAt_bounds hm0
        exact ⟨le_of_eq h1.symm, by rw [h1]; exact h2, h3, ih⟩
      · exact chainedFrom_mono (Nat.le_succ p) ih

/-- Each `(match, span end)` pair produced by `spanEnds` pairs a match of
the list with an end offset at or after the match's end. -/
theorem spanEnds_mem {len : Nat} :
    ∀ {ms : List RMatch} {lo : Nat}, ChainedFrom len lo ms →
      ∀ {pr : RMatch × Nat}, pr ∈ spanEnds ms len → pr.1 ∈ ms ∧ pr.1.stop ≤ pr.2 := by
  intro ms
  induction ms with
  | nil => intro lo _ pr hpr; exact absurd hpr (by simp [spanEnds])
  | cons m ms ih =>
    intro lo hch pr hpr
    cases ms with
    | nil =>
      simp only [spanEnds, List.mem_singleton] at hpr
      subst hpr
      exact ⟨List.mem_singleton_self m, hch.2.2.1⟩
    | cons m' rest =>
      simp only [spanEnds] at hpr
      rcases List.mem_cons.mp hpr with rfl | hmem
      · exact ⟨List.mem_cons_self _ _, hch.2.2.2.1⟩
      · obtain ⟨hm, hstop⟩ := ih hch.2.2.2 hmem
        exact ⟨List.mem_cons_of_mem _ hm, hstop⟩

/-- Stripping whitespace from `ws ++ tok ++ tail` (whitespace `ws`, token
starting and ending in non-whitespace) keeps the token as a prefix. -/
theorem token_isPrefixOf_strip {ws tok tail : List Char}
    (hws : ws.all isSpc = true)
    (hhd : ∃ c cs, tok = c :: cs ∧ isSpc c = false)
    (hlast : ∃ d, tok.getLast? = some d ∧ isSpc d = false) :
    tok.isPrefixOf (stripChars (ws ++ tok ++ tail)) = true := by
  obtain ⟨c, cs, htok, hc⟩ := hhd
  obtain ⟨d, hd, hdns⟩ := hlast
  rw [List.isPrefixOf_iff_prefix]
  have h1 : List.dropWhile isSpc (ws ++ tok ++ tail) = tok ++ tail := by
    rw [List.append_assoc,
      List.dropWhile_append_of_pos (by simpa using List.all_eq_true.mp hws), htok,
      List.cons_append, List.dropWhile_cons_of_neg (by simp [hc]), ← List.cons_append]
  obtain ⟨ds, hdrev⟩ : ∃ ds, tok.reverse = d :: ds := by
    apply List.head?_eq_some_iff.mp
    rw [List.head?_reverse]
    exact hd
  show tok <+: stripChars (ws ++ tok ++ tail)
  rw [stripChars, h1, List.reverse_append, List.dropWhile_append]
  split
  · next hempty =>
    rw [hdrev, List.dropWhile_cons_of_neg (by simp [hdns]), ← hdrev, List.reverse_reverse]
  · next hnonempty =>
    rw [List.reverse_append, List.reverse_reverse]
    exact List.prefix_append _ _

/-- The stripped span of a match, from its start to any offset at or past
its end, starts with the match's token. -/
theorem token_isPrefixOf_span {text : List Char} {p e : Nat} {m : RMatch}
    (h : tryMatchAt text p = some m) (he : m.stop ≤ e) :
    m.token.isPrefixOf (stripChars (slice text p e)) = true := by
  obtain ⟨hstart, ws, mid, rest, hsplit, hws, hmid, hhd, hlast, hstop⟩ := tryMatchAt_spec h
  have hslice : slice text p e
      = ws ++ m.token ++ (mid ++ rest).take (e - p - ws.length - m.token.length) := by
    rw [slice, hsplit, List.append_assoc, List.append_assoc,
      List.take_append_eq_append_take,
      List.take_of_length_le (show ws.length ≤ e - p by omega),
      List.take_append_eq_append_take,
      List.take_of_length_le (show m.token.length ≤ e - p - ws.length by omega)]
    simp [List.append_assoc]
  rw [hslice]
  exact token_isPrefixOf_strip hws hhd hlast

/-- Every `(token, content)` pair fed to the hierarchy builder has the
token as a prefix of the content. -/
theorem spanPairs_tokenOK {text : List Char} :
    ∀ pr ∈ spanPairs text, pr.1.isPrefixOf pr.2 = true := by
  intro pr hpr
  simp only [spanPairs, List.mem_map] at hpr
  obtain ⟨⟨m, e⟩, hmem, rfl⟩ := hpr
  have hch : ChainedFrom text.length 0 (scan text) := scanFrom_chained
  obtain ⟨hm, hstop⟩ := spanEnds_mem hch hmem
  exact token_isPrefixOf_span (scanFrom_mem hm) hstop

theorem forestMarkOK_append {a b : List Node} :
    forestMarkOK (a ++ b) = (forestMarkOK a && forestMarkOK b) := by
  induction a with
  | nil => simp [forestMarkOK]
  | cons n ns ih => simp [forestMarkOK, ih, Bool.and_assoc]

theorem nodeMarkOK_closeFrame {f : Frame} : nodeMarkOK (closeFrame f) = frameOK f := rfl

/-- Popping frames preserves the marker-is-a-prefix invariant on both the
closed roots and the still-open frames. -/
theorem popN_markOK :
    ∀ (n : Nat) (roots : List Node) (stack : List Frame),
      forestMarkOK roots = true → stack.all frameOK = true →
      forestMarkOK (popN n roots stack).1 = true
        ∧ ((popN n roots stack).2).all frameOK = true := by
  intro n
  induction n with
  | zero => intro roots stack hr hs; exact ⟨hr, hs⟩
  | succ n ih =>
    intro roots stack hr hs
    match stack with
    | [] => simp only [popN]; exact ⟨hr, rfl⟩
    | [f] =>
      simp only [popN]
      apply ih
      · simp only [List.all_cons, List.all_nil, Bool.and_true] at hs
        rw [forestMarkOK_append]
        simp only [forestMarkOK, nodeMarkOK_closeFrame, hs, hr, Bool.and_true, Bool.and_self]
      · simp
    | f :: g :: gs =>
      simp only [popN]
      apply ih
      · exact hr
      · simp only [List.all_cons, Bool.and_eq_true] at hs ⊢
        obtain ⟨hf, hg, hgs⟩ := hs
        refine ⟨?_, hgs⟩
        have hcl : forestMarkOK [closeFrame f] = true := by
          simp only [forestMarkOK, nodeMarkOK_closeFrame, hf, Bool.and_true]
        simp only [frameOK, Bool.and_eq_true] at hg ⊢
        obtain ⟨hg1, hg2⟩ := hg
        rw [forestMarkOK_append]
        simp only [Bool.and_eq_true]
        exact ⟨hg1, hg2, hcl⟩

/-- The marker loop preserves the marker-is-a-prefix invariant. -/
theorem foldl_step_markOK :
    ∀ (prs : List (List Char × List Char)) (st : List Node × List Frame),
      (∀ pr ∈ prs, pr.1.isPrefixOf pr.2 = true) →
      forestMarkOK st.1 = true → st.2.all frameOK = true →
      forestMarkOK ((prs.foldl step st).1) = true
        ∧ ((prs.foldl step st).2).all frameOK = true := by
  intro prs
  induction prs with
  | nil => intro st h hr hs; exact ⟨hr, hs⟩
  | cons pr prs ih =>
    intro st h hr hs
    simp only [List.foldl_cons]
    obtain ⟨h1, h2⟩ := popN_markOK (st.2.length + 1 - classify_level pr.1) st.1 st.2 hr hs
    apply ih
    · intro q hq; exact h q (List.mem_cons_of_mem _ hq)
    · exact h1
    · simp only [step, popWhile, List.all_cons, Bool.and_eq_true]
      refine ⟨?_, h2⟩
      simp only [frameOK, forestMarkOK, Bool.and_true]
      exact h pr (List.mem_cons_self _ _)

/-- C10: for every input text, every node produced by
`parse_legal_structure` has a `text` field that begins with exactly its
`marker` field (the trimmed span starts with the trimmed matched token). -/
theorem c10_marker_starts_text (text : List Char) :
    forestMarkOK (parse_legal_structure text) = true := by
  simp only [parse_legal_structure, finalize]
  obtain ⟨h1, h2⟩ := foldl_step_markOK (spanPairs text) ([], []) spanPairs_tokenOK rfl rfl
  exact (popN_markOK _ _ _ h1 h2).1

/-- None of the four tokenizer alternatives matches at the beginning of
the Scenario C line (its first characters `See` fail all four shapes),
whatever follows. -/
theorem tryCore_See (rest : List Char) : tryCore ('S' :: 'e' :: 'e' :: rest) = none := rfl

/-- The tokenizer does not match at the start of the Scenario C line, in
any surrounding context. -/
theorem tryMatchAt_at_lineC (pre suf : List Char) :
    tryMatchAt (pre ++ lineC ++ suf) pre.length = none := by
  simp only [tryMatchAt]
  split
  · have hdrop : (pre ++ lineC ++ suf).drop pre.length = lineC ++ suf := by
      rw [List.append_assoc]
      exact List.drop_left pre (lineC ++ suf)
    rw [hdrop,
      show lineC ++ suf
          = 'S' :: 'e' :: 'e' :: (" subsection (1) of Section 4 for details.".toList ++ suf)
        from rfl,
      List.dropWhile_cons_of_neg (by decide), tryCore_See]
  · rfl

/-- No position strictly inside the Scenario C line is a line start: the
line contains no newline. -/
theorem lineStart_false_in_lineC (pre suf : List Char) {p : Nat}
    (h1 : pre.length < p) (h2 : p < pre.length + lineC.length) :
    isLineStart (pre ++ lineC ++ suf) p = false := by
  have hlen : lineC.length = 44 := rfl
  have hp0 : p ≠ 0 := by omega
  have hidx1 : pre.length ≤ p - 1 := by omega
  have hgl : (pre ++ (lineC ++ suf))[p - 1]? = (lineC ++ suf)[p - 1 - pre.length]? :=
    List.getElem?_append_right hidx1
  have hidx2 : p - 1 - pre.length < lineC.length := by omega
  have hg2 : (lineC ++ suf)[p - 1 - pre.length]? = lineC[p - 1 - pre.length]? :=
    List.getElem?_append_left hidx2
  cases hc : lineC[p - 1 - pre.length]? with
  | none => rw [List.getElem?_eq_none_iff] at hc; omega
  | some c =>
    have hcne : c ≠ '\n' := by
      have hall : ∀ x ∈ lineC, x ≠ '\n' := by decide
      exact hall c (List.getElem?_mem hc)
    simp [isLineStart, hgl, hg2, hc, hp0, hcne]

/-- C9: the tokenizer emits zero markers anchored within the inline
cross-reference line `See subsection (1) of Section 4 for details.`,
wherever that line occurs in the input: neither its inline `(1)` nor its
inline `Section 4` is tokenized, since no marker shape matches at the
line's start and interior positions are not line starts. -/
theorem c9_no_inline_markers (pre suf : List Char) :
    (scan (pre ++ lineC ++ suf)).filter
      (fun m => decide (pre.length ≤ m.start ∧ m.start < pre.length + lineC.length)) = [] := by
  rw [List.filter_eq_nil_iff]
  intro m hm hdec
  rw [decide_eq_true_iff] at hdec
  obtain ⟨hlo, hhi⟩ := hdec
  have hmatch : tryMatchAt (pre ++ lineC ++ suf) m.start = some m := scanFrom_mem hm
  rcases Nat.eq_or_lt_of_le hlo with heq | hlt
  · rw [← heq, tryMatchAt_at_lineC] at hmatch
    exact absurd hmatch (by simp)
  · rw [tryMatchAt_none_of_not_lineStart (lineStart_false_in_lineC pre suf hlt hhi)] at hmatch
    exact absurd hmatch (by simp)

theorem flatForest_append {a b : List Node} :
    flatForest (a ++ b) = flatForest a ++ flatForest b := by
  induction a with
  | nil => simp [flatForest]
  | cons n ns ih => simp [flatForest, ih]

theorem flatStack_cons {f : Frame} {stack : List Frame} :
    flatStack (f :: stack) = flatStack stack ++ flatFrame f := by
  simp [flatStack]

theorem flatNode_closeFrame {f : Frame} : flatNode (closeFrame f) = flatFrame f := rfl

/-- Popping frames does not change the flattened `(marker, text)` content
of the state: a closed frame's pairs move from the stack into the tree. -/
theorem popN_flat :
    ∀ (n : Nat) (roots : List Node) (stack : List Frame),
      flatForest (popN n roots stack).1 ++ flatStack (popN n roots stack).2
        = flatForest roots ++ flatStack stack := by
  intro n
  induction n with
  | zero => intro roots stack; rfl
  | succ n ih =>
    intro roots stack
    match stack with
    | [] => simp only [popN]
    | [f] =>
      simp only [popN]
      rw [ih, flatForest_append, flatStack_cons]
      simp [flatStack, flatForest, flatNode_closeFrame]
    | f :: g :: gs =>
      simp only [popN]
      rw [ih, flatStack_cons, flatStack_cons, flatStack_cons]
      simp only [flatFrame, flatForest_append, flatNode_closeFrame]
      simp [flatForest, flatFrame, List.append_assoc, flatNode_closeFrame]

/-- The marker loop appends each consumed `(token, content)` pair to the
flattened content of the state. -/
theorem foldl_step_flat :
    ∀ (prs : List (List Char × List Char)) (st : List Node × List Frame),
      flatForest ((prs.foldl step st).1) ++ flatStack ((prs.foldl step st).2)
        = flatForest st.1 ++ flatStack st.2 ++ prs := by
  intro prs
  induction prs with
  | nil => intro st; simp
  | cons pr prs ih =>
    intro st
    simp only [List.foldl_cons]
    rw [ih]
    simp only [step, popWhile, flatStack_cons]
    rw [show flatFrame ⟨pr.1, pr.2, []⟩ = [(pr.1, pr.2)] from rfl,
      ← List.append_assoc, popN_flat]
    simp [List.append_assoc]

theorem popN_stack_length :
    ∀ (n : Nat) (roots : List Node) (stack : List Frame),
      (popN n roots stack).2.length = stack.length - n := by
  intro n
  induction n with
  | zero => intro roots stack; rfl
  | succ n ih =>
    intro roots stack
    match stack with
    | [] => simp [popN]
    | [f] => simp [popN, ih]
    | f :: g :: gs =>
      simp only [popN, ih]
      simp only [List.length_cons]
      omega

/-- The flattened `(marker, text)` pairs of the parse tree, in document
(preorder) order, are exactly the `(token, content)` pairs of the matches
in match order. -/
theorem flat_parse (text : List Char) :
    flatForest (parse_legal_structure text) = spanPairs text := by
  simp only [parse_legal_structure, finalize]
  set st := (spanPairs text).foldl step ([], []) with hst
  have h3 : (popN st.2.length st.1 st.2).2 = [] := by
    have hl := popN_stack_length st.2.length st.1 st.2
    rw [Nat.sub_self] at hl
    exact List.length_eq_zero.mp hl
  have h4 := popN_flat st.2.length st.1 st.2
  rw [h3, show flatStack ([] : List Frame) = [] from rfl, List.append_nil] at h4
  rw [h4]
  have h5 := foldl_step_flat (spanPairs text) ([], [])
  rw [← hst] at h5
  simpa using h5

theorem slice_to_end {text : List Char} {a : Nat} :
    slice text a text.length = text.drop a := by
  rw [slice]
  exact List.take_of_length_le (by simp)

theorem slice_append_drop {text : List Char} {a b : Nat} (hab : a ≤ b) :
    slice text a b ++ text.drop b = text.drop a := by
  rw [slice]
  have h1 : text.drop b = List.drop (b - a) (text.drop a) := by
    rw [List.drop_drop]
    congr 1
    omega
  rw [h1, List.take_append_drop]

/-- The raw (untrimmed) spans of a chained match list concatenate, with no
gap and no overlap, to the text from the first match's start to its end. -/
theorem spanEnds_flatten_eq {text : List Char} :
    ∀ {ms : List RMatch} {m : RMatch} {lo : Nat},
      ChainedFrom text.length lo (m :: ms) →
      ((spanEnds (m :: ms) text.length).map
        (fun pr => slice text pr.1.start pr.2)).flatten = text.drop m.start := by
  intro ms
  induction ms with
  | nil =>
    intro m lo hch
    simp only [spanEnds, List.map_cons, List.map_nil, List.flatten_cons, List.flatten_nil,
      List.append_nil]
    exact slice_to_end
  | cons m' rest ih =>
    intro m lo hch
    obtain ⟨h1, h2, h3, hch'⟩ := hch
    simp only [spanEnds, List.map_cons, List.flatten_cons]
    rw [ih hch']
    exact slice_append_drop (le_trans h2 hch'.1)

/-- C4 counterexample: the node `text` fields are stripped, so their
concatenation loses the whitespace at span boundaries and does not equal
the substring of the normalized text from the first marker's start. -/
theorem c4_counterexample :
    ((scan (normalize_text "Section 1. foo\nSection 2. bar".toList)).head?.map RMatch.start
        = some 0)
      ∧ ((flatForest (parse_legal_structure
            (normalize_text "Section 1. foo\nSection 2. bar".toList))).map Prod.snd).flatten
          ≠ (normalize_text "Section 1. foo\nSection 2. bar".toList).drop 0 := by
  decide

/-- C4 amended: the concatenation of the RAW (untrimmed) spans — from each
marker's start to the next marker's start, end of text for the last —
equals exactly the substring of the text from the first marker's start to
the end of input, with no gap and no overlap; the tree's node
`(marker, text)` pairs, flattened in document order, are exactly the
`(token, trimmed raw span)` pairs of the matches, so boundary whitespace is
exactly what the stored texts lose. -/
theorem c4_amended (text : List Char) (m : RMatch) (ms : List RMatch)
    (h : scan text = m :: ms) :
    rawSpanConcat text = text.drop m.start
      ∧ flatForest (parse_legal_structure text) = spanPairs text := by
  constructor
  · rw [rawSpanConcat, h]
    have hch : ChainedFrom text.length 0 (m :: ms) := by
      rw [← h]
      exact scanFrom_chained
    exact spanEnds_flatten_eq hch
  · exact flat_parse text

/-- C4 amended, witness at a concrete normalized two-marker text. -/
theorem c4_amended_witness :
    scan (normalize_text "Section 1. foo\nSection 2. bar".toList)
        = ⟨0, 10, "Section 1.".toList⟩ :: [⟨15, 26, "Section 2.".toList⟩]
      ∧ (rawSpanConcat (normalize_text "Section 1. foo\nSection 2. bar".toList)
            = (normalize_text "Section 1. foo\nSection 2. bar".toList).drop 0
          ∧ flatForest (parse_legal_structure
              (normalize_text "Section 1. foo\nSection 2. bar".toList))
            = spanPairs (normalize_text "Section 1. foo\nSection 2. bar".toList)) :=
  ⟨by decide, c4_amended (normalize_text "Section 1. foo\nSection 2. bar".toList)
    ⟨0, 10, "Section 1.".toList⟩ [⟨15, 26, "Section 2.".toList⟩] (by decide)⟩

end MLP
